import Mathlib

set_option maxHeartbeats 1000000

namespace Snail

/-!
Verification of the `tree-sitter-snail` binding header
(`bindings/swift/TreeSitterSnail/snail.h`) and of the incremental-parsing
runtime that the specification describes around it.

Part 1 embeds the C header as data: its raw lines, and a structured view of
the declarations it contains, together with a model of the preprocessor's
include-guard mechanism.
-/

/-- The sixteen raw lines of `snail.h`, exactly as in the repository. -/
def snailHeaderLines : List String :=
  [ "#ifndef TREE_SITTER_SNAIL_H_"
  , "#define TREE_SITTER_SNAIL_H_"
  , ""
  , "typedef struct TSLanguage TSLanguage;"
  , ""
  , "#ifdef __cplusplus"
  , "extern \"C\" \x7b"
  , "#endif"
  , ""
  , "const TSLanguage *tree_sitter_snail(void);"
  , ""
  , "#ifdef __cplusplus"
  , "\x7d"
  , "#endif"
  , ""
  , "#endif // TREE_SITTER_SNAIL_H_" ]

/-- A C return type of pointer shape: `const T *` when `isConst`, else `T *`. -/
structure CRet where
  isConst : Bool
  pointee : String
deriving DecidableEq

/-- The kinds of top-level C declarations relevant to this header: an opaque
forward typedef (`typedef struct X X;`), a struct definition with fields, a
function declaration (prototype), and a function definition with a body of
`bodyStmts` statements (control flow / algorithmic logic). -/
inductive CDecl where
  | typedefForward (structName : String) (aliasName : String)
  | structDef (structName : String) (fields : List String)
  | funDecl (ret : CRet) (name : String) (params : List String)
  | funDef (ret : CRet) (name : String) (params : List String) (bodyStmts : Nat)
deriving DecidableEq

/-- A C header: its include-guard macro name and its declarations. -/
structure CHeader where
  guardName : String
  decls : List CDecl

/-- The structured content of `snail.h`: the opaque forward declaration of
`struct TSLanguage` and the single prototype
`const TSLanguage *tree_sitter_snail(void);`. -/
def snailHeader : CHeader :=
  { guardName := "TREE_SITTER_SNAIL_H_"
  , decls :=
      [ CDecl.typedefForward "TSLanguage" "TSLanguage"
      , CDecl.funDecl ⟨true, "TSLanguage"⟩ "tree_sitter_snail" [] ] }

/-- Is this declaration a function declaration (prototype)? -/
def CDecl.isFunDecl : CDecl → Bool
  | .funDecl _ _ _ => true
  | _ => false

/-- Is this declaration a function definition (it carries a body)? -/
def CDecl.isFunDef : CDecl → Bool
  | .funDef _ _ _ _ => true
  | _ => false

/-- Is this declaration a struct definition (it exposes fields)? -/
def CDecl.isStructDef : CDecl → Bool
  | .structDef _ _ => true
  | _ => false

/-- Does this declaration introduce a type? -/
def CDecl.isTypeIntro : CDecl → Bool
  | .typedefForward _ _ => true
  | .structDef _ _ => true
  | _ => false

/-- Does this declaration define (give a complete layout for) struct `n`? -/
def CDecl.definesStruct (n : String) : CDecl → Bool
  | .structDef m _ => m == n
  | _ => false

/-- The function declarations of a header. -/
def CHeader.funDecls (h : CHeader) : List CDecl :=
  h.decls.filter CDecl.isFunDecl

/-- Whether struct `n` is defined (complete) anywhere in the header. -/
def CHeader.structDefined (h : CHeader) (n : String) : Bool :=
  h.decls.any (CDecl.definesStruct n)

/-- The return type the header declares for function `fn`, if any. -/
def CHeader.retOf (h : CHeader) (fn : String) : Option CRet :=
  h.decls.findSome? fun d =>
    match d with
    | .funDecl r n _ => if n == fn then some r else none
    | _ => none

/-- Whether a caller of `fn` can mutate state through the returned handle:
possible only if the return type is non-const, or the pointee's struct
definition is exposed in the header (the type is not opaque). -/
def CHeader.canMutateThrough (h : CHeader) (fn : String) : Bool :=
  h.decls.any fun d =>
    match d with
    | .funDecl r n _ => n == fn && (!r.isConst || h.structDefined r.pointee)
    | _ => false

/-- One preprocessor inclusion of a guarded header, given the set of macros
already defined: if the guard is defined nothing is emitted; otherwise the
guard becomes defined and the header's declarations are emitted. -/
def includeOnce (h : CHeader) (defs : List String) : List String × List CDecl :=
  if h.guardName ∈ defs then (defs, []) else (h.guardName :: defs, h.decls)

/-- The declarations emitted by `n` successive inclusions of the header in one
translation unit, starting from macro set `defs`. -/
def includeTimes (h : CHeader) : Nat → List String → List CDecl
  | 0, _ => []
  | n + 1, defs =>
    let r := includeOnce h defs
    r.2 ++ includeTimes h n r.1

/-!
Part 2: the incremental-parsing runtime. The binding header is the public
boundary of a tree-sitter-style runtime whose sources are not part of this
slice of the repository, so the runtime is modelled from the specification:
an LR-style shift/reduce machine over a compiled grammar, with local error
recovery, span-annotated concrete syntax trees, and an incremental
`reparse` that reuses the tokens of undamaged leaves from the prior tree.
-/

/-- Modelled from the spec: a token is a symbol id with a byte span
(`{symbol id, byte start, byte end}`). -/
structure Token where
  sym : Nat
  start : Nat
  stop : Nat
deriving DecidableEq

/-- Modelled from the spec: a grammar rule, its left-hand nonterminal and the
number of right-hand-side symbols it pops at a reduction. -/
structure Rule where
  lhs : Nat
  len : Nat
deriving DecidableEq

/-- Modelled from the spec: the parse-table actions
`Shift(next_state) | Reduce(rule) | Accept | Error`. -/
inductive Action where
  | shift (next : Nat)
  | reduce (r : Rule)
  | accept
  | error
deriving DecidableEq

/-- Modelled from the spec: the compiled grammar, missing from this slice of
the repository (only its binding header is present) — a version tag, the
lexer's byte-classification table, the parse table `action(state, lookahead)`
(lookahead `none` is end of input), the `goto` table consulted after a
reduction, and the start state. Immutable: the runtime only reads it. -/
structure Grammar where
  version : Nat
  classify : Nat → Nat
  action : Nat → Option Nat → Action
  goto : Nat → Nat → Nat
  startState : Nat

/-- The reserved symbol id of explicit `ERROR` nodes. -/
def errorSym : Nat := 65535

/-- Modelled from the spec: a concrete-syntax-tree node — a span-annotated
leaf for a token, or an internal node with an ordered list of children whose
span is the union of the children's spans. -/
inductive Node where
  | leaf (sym : Nat) (start : Nat) (stop : Nat)
  | internal (sym : Nat) (children : List Node)

/-- Modelled from the spec: the lexer contract
`next_token(state, position) -> Token | EndOfInput`: classify the byte at the
cursor, or report end of input. Deterministic in `(state, cursor, text)`. -/
def nextToken (g : Grammar) (_st : Nat) (pos : Nat) (text : List Nat) :
    Option Token :=
  match text.get? pos with
  | some b => some ⟨g.classify b, pos, pos + 1⟩
  | none => none

/-- Tokenize `text`, byte positions starting at `p`. -/
def lexFrom (g : Grammar) : List Nat → Nat → List Token
  | [], _ => []
  | b :: bs, p => ⟨g.classify b, p, p + 1⟩ :: lexFrom g bs (p + 1)

/-- Tokenize a whole text from position 0. -/
def lex (g : Grammar) (text : List Nat) : List Token := lexFrom g text 0

/-- Modelled from the spec: a configuration of the parser core — current
state, the stack of (state-below, subtree) pairs (top first), and the
remaining tokens. -/
structure Config where
  st : Nat
  stack : List (Nat × Node)
  toks : List Token

/-- The subtrees held on a stack, in textual (bottom-to-top) order. -/
def stackNodes (stack : List (Nat × Node)) : List Node :=
  (stack.map Prod.snd).reverse

/-- The explicit `ERROR` node recovery wraps around a skipped token. -/
def errWrap (t : Token) : Node :=
  .internal errorSym [.leaf t.sym t.start t.stop]

/-- Assemble the final tree at an `Accept`: the single subtree when the stack
has exactly one entry, otherwise an `ERROR` root collecting the fragments. -/
def assemble (stack : List (Nat × Node)) : Node :=
  match stack with
  | [(_, n)] => n
  | _ => .internal errorSym (stackNodes stack)

/-- Modelled from the spec: a reduction — pop `r.len` entries, build an
internal node whose children are the popped subtrees in textual order, and
push it in the state given by the `goto` table. -/
def reduceStep (g : Grammar) (r : Rule) (c : Config) : Config :=
  let popped := c.stack.take r.len
  let below := (popped.getD (r.len - 1) (0, .internal 0 [])).1
  ⟨g.goto below r.lhs,
    (below, Node.internal r.lhs (stackNodes popped)) :: c.stack.drop r.len,
    c.toks⟩

/-- The outcome of one machine step: continue in a new configuration, or
finish with a tree. -/
inductive StepOut where
  | cont (c : Config)
  | done (t : Node)

/-- Modelled from the spec: one step of the parser core. At end of input:
`Accept` assembles the tree, a progress-making `Reduce` (pops at least two
entries that are present) reduces, anything else finishes with an `ERROR`
root. On a lookahead token: `Shift` consumes it as a leaf, a progress-making
`Reduce` reduces, and any other case is error recovery — the token is
skipped and embedded as an explicit `ERROR` node, so every recovery step
consumes a non-zero number of tokens. -/
def step (g : Grammar) (c : Config) : StepOut :=
  match c.toks with
  | [] =>
    match g.action c.st none with
    | .accept => .done (assemble c.stack)
    | .reduce r =>
      if 2 ≤ r.len ∧ r.len ≤ c.stack.length then .cont (reduceStep g r c)
      else .done (.internal errorSym (stackNodes c.stack))
    | _ => .done (.internal errorSym (stackNodes c.stack))
  | t :: ts =>
    match g.action c.st (some t.sym) with
    | .shift s' => .cont ⟨s', (c.st, .leaf t.sym t.start t.stop) :: c.stack, ts⟩
    | .reduce r =>
      if 2 ≤ r.len ∧ r.len ≤ c.stack.length then .cont (reduceStep g r c)
      else .cont ⟨c.st, (c.st, errWrap t) :: c.stack, ts⟩
    | _ => .cont ⟨c.st, (c.st, errWrap t) :: c.stack, ts⟩

/-- Run the machine for at most `fuel` steps. -/
def run (g : Grammar) : Nat → Config → Option Node
  | 0, _ => none
  | fuel + 1, c =>
    match step g c with
    | .done t => some t
    | .cont c' => run g fuel c'

/-- The termination measure: each continuing step either consumes a token or
strictly shrinks the stack. -/
def measure (c : Config) : Nat := 2 * c.toks.length + c.stack.length

/-- The initial configuration over a token list. -/
def initc (g : Grammar) (ts : List Token) : Config := ⟨g.startState, [], ts⟩

/-- Parse a token list: run the machine with (provably sufficient) fuel. -/
def parseToks (g : Grammar) (ts : List Token) : Node :=
  (run g (2 * ts.length + 1) (initc g ts)).getD (.internal errorSym [])

/-- Modelled from the spec: a syntax tree — root node, source text length,
and the grammar version tag it was produced under. -/
structure Tree where
  root : Node
  len : Nat
  version : Nat

/-- Modelled from the spec: full parsing — tokenize the text and drive the
parser core over the tokens. -/
def parse (g : Grammar) (text : List Nat) : Tree :=
  ⟨parseToks g (lex g text), text.length, g.version⟩

/-- Modelled from the spec: an edit — byte range removed (starting at
`start`, `removed` bytes) and the bytes inserted in its place. -/
structure Edit where
  start : Nat
  removed : Nat
  inserted : List Nat

/-- Modelled from the spec: applying an edit to a text. -/
def applyEdit (text : List Nat) (e : Edit) : List Nat :=
  text.take e.start ++ e.inserted ++ text.drop (e.start + e.removed)

mutual

/-- The tokens at the leaves of a node, in textual order. -/
def treeLeaves : Node → List Token
  | .leaf s a b => [⟨s, a, b⟩]
  | .internal _ cs => leavesAll cs

/-- The tokens at the leaves of a forest, in textual order. -/
def leavesAll : List Node → List Token
  | [] => []
  | n :: ns => treeLeaves n ++ leavesAll ns

end

/-- Modelled from the spec: the hard-failure conditions that propagate to the
caller — `ResourceExhausted` and `GrammarMismatch`. -/
inductive ParseError where
  | resourceExhausted
  | grammarMismatch
deriving DecidableEq

/-- Modelled from the spec: incremental re-parsing
`reparse(prior_tree, edit, new_text)`. A prior tree from a different grammar
revision is rejected before any work begins. Otherwise the leaf tokens of the
prior tree that lie entirely before the edited range are reused wholesale
(short-circuiting re-lexing of the undamaged region), the damaged region
onward is re-lexed, and the parser core is re-driven over the combined
tokens. -/
def reparse (g : Grammar) (prior : Tree) (e : Edit) (newText : List Nat) :
    Except ParseError Tree :=
  if prior.version = g.version then
    .ok ⟨parseToks g
          ((treeLeaves prior.root).take (min e.start prior.len) ++
            lexFrom g (newText.drop (min e.start prior.len))
              (min e.start prior.len)),
        newText.length, g.version⟩
  else .error .grammarMismatch

/-- Does a stack-depth budget reject this configuration? (`none`: no ceiling.) -/
def overBudget : Option Nat → Config → Bool
  | none, _ => false
  | some b, c => b < c.stack.length

/-- Run the machine under an optional stack-depth ceiling, failing with
`ResourceExhausted` when the ceiling is exceeded. -/
def runB (g : Grammar) (budget : Option Nat) :
    Nat → Config → Option (Except ParseError Node)
  | 0, _ => none
  | fuel + 1, c =>
    if overBudget budget c then some (.error .resourceExhausted)
    else
      match step g c with
      | .done t => some (.ok t)
      | .cont c' => runB g budget fuel c'

/-- Modelled from the spec: the public parse entry point — parse under an
optional resource ceiling, returning either a tree or a hard failure (never
a partial tree on failure). -/
def parseApi (g : Grammar) (budget : Option Nat) (text : List Nat) :
    Except ParseError Tree :=
  match runB g budget (2 * (lex g text).length + 1) (initc g (lex g text)) with
  | some (.ok t) => .ok ⟨t, text.length, g.version⟩
  | some (.error e) => .error e
  | none => .error .resourceExhausted

/-- Is this node an explicit `ERROR` node? -/
def isErrNode : Node → Bool
  | .internal s _ => s == errorSym
  | _ => false

/-- The leaf tokens held on a stack, in textual order. -/
def stackLeaves (stack : List (Nat × Node)) : List Token :=
  leavesAll (stackNodes stack)

/-!
Span invariants. `nStart`/`nStop` read a node's derived byte span off its
leaves. `spannedB n a b` states that `n` covers exactly the byte range
`[a, b)` with contiguous, ordered children; the machine maintains it for
every subtree on the stack, and from it follow the specification's span
invariants: child spans contained in the parent's span, sibling spans
non-overlapping and increasing.
-/

/-- The children of a node. -/
def childrenOf : Node → List Node
  | .leaf _ _ _ => []
  | .internal _ cs => cs

mutual

/-- The derived start of a node's span. -/
def nStart : Node → Nat
  | .leaf _ a _ => a
  | .internal _ cs => lStart cs

/-- The derived start of a forest's span. -/
def lStart : List Node → Nat
  | [] => 0
  | c :: _ => nStart c

end

mutual

/-- The derived stop of a node's span. -/
def nStop : Node → Nat
  | .leaf _ _ b => b
  | .internal _ cs => lStop cs

/-- The derived stop of a forest's span. -/
def lStop : List Node → Nat
  | [] => 0
  | [c] => nStop c
  | _ :: c :: cs => lStop (c :: cs)

end

mutual

/-- Node `n` covers exactly the byte range `[x, y)`: a leaf carries that very
span, and an internal node has a non-empty child list tiling the range. -/
def spannedB : Node → Nat → Nat → Bool
  | .leaf _ a b, x, y => (a == x) && (b == y) && decide (x ≤ y)
  | .internal _ [], _, _ => false
  | .internal _ (c :: cs), x, y => spannedLB (c :: cs) x y

/-- A forest tiles the byte range `[x, y)` contiguously, in order. -/
def spannedLB : List Node → Nat → Nat → Bool
  | [], x, y => x == y
  | c :: cs, x, y => spannedB c x (nStop c) && spannedLB cs (nStop c) y

end

/-- `m` is a subnode of `n` (reflexive, through children). -/
inductive Subnode : Node → Node → Prop
  | refl (n : Node) : Subnode n n
  | child {m c n : Node} : c ∈ childrenOf n → Subnode m c → Subnode m n

/-- The specification's local span conditions at one node: each child's span
is contained in the node's span, and sibling spans are non-overlapping and
monotonically increasing in document order. -/
def childSpansOk (m : Node) : Prop :=
  (∀ c ∈ childrenOf m, nStart m ≤ nStart c ∧ nStop c ≤ nStop m) ∧
    List.Chain' (fun a b => nStop a ≤ nStart b) (childrenOf m)

/-- The specification's span invariant: every node of the tree satisfies the
local span conditions. -/
def SpanInv (n : Node) : Prop := ∀ m, Subnode m n → childSpansOk m

/-- Tokens are contiguous from byte position `p`: each token starts where the
previous stopped, with a non-negative width. -/
def tokensFrom : Nat → List Token → Bool
  | _, [] => true
  | p, t :: ts => (t.start == p) && decide (p ≤ t.stop) && tokensFrom t.stop ts

/-- The machine's stack invariant: the subtrees on the stack tile the consumed
input contiguously from byte 0 up to the current position `p`. -/
def stackCovB : List (Nat × Node) → Nat → Bool
  | [], p => p == 0
  | (_, n) :: rest, p => spannedB n (nStart n) p && stackCovB rest (nStart n)

/-- One complete run of the parser core: from configuration `c` the machine
steps to completion and yields tree `t`. -/
inductive Run (g : Grammar) : Config → Node → Prop
  | done {c : Config} {t : Node} : step g c = .done t → Run g c t
  | next {c c' : Config} {t : Node} :
      step g c = .cont c' → Run g c' t → Run g c t

/-- A demo grammar for `expr := NUMBER (PLUS NUMBER)*`, parsed
left-associatively: byte classes NUMBER (ASCII digits, terminal symbol 0)
and PLUS (`'+'`, terminal symbol 1), nonterminal `expr` is symbol 10.
States: 0 start, 1 have-expr, 2 after-plus, 3 have-expr-plus-number. -/
def demoG : Grammar :=
  { version := 1
  , classify := fun b =>
      if 48 ≤ b ∧ b ≤ 57 then 0 else if b = 43 then 1 else 2
  , action := fun st la =>
      match st, la with
      | 0, some 0 => .shift 1
      | 1, some 1 => .shift 2
      | 1, none => .accept
      | 2, some 0 => .shift 3
      | 3, some 1 => .reduce ⟨10, 3⟩
      | 3, none => .reduce ⟨10, 3⟩
      | _, _ => .error
  , goto := fun s n => if s = 0 ∧ n = 10 then 1 else 0
  , startState := 0 }

/-- The demo grammar under a different (bumped) grammar revision. -/
def demoG2 : Grammar := { demoG with version := 2 }

/-- The demo input, the bytes of the string of digit 1, plus, digit 2,
plus, digit 3. -/
def demoText : List Nat := [49, 43, 50, 43, 51]

/-- The expected left-associated tree of the demo input. -/
def demoRoot : Node :=
  .internal 10
    [.internal 10 [.leaf 0 0 1, .leaf 1 1 2, .leaf 0 2 3],
      .leaf 1 3 4, .leaf 0 4 5]

/-- The initial machine configuration over the demo input. -/
def demoC0 : Config := initc demoG (lex demoG demoText)

/-- The configuration after the first (shift) step on the demo input. -/
def demoC1 : Config :=
  ⟨1, [(0, .leaf 0 0 1)], [⟨1, 1, 2⟩, ⟨0, 2, 3⟩, ⟨1, 3, 4⟩, ⟨0, 4, 5⟩]⟩

/-- A demo edit: replace the one byte at offset 2 by the digit 9. -/
def demoEdit : Edit := ⟨2, 1, [57]⟩

theorem includeTimes_guarded (h : CHeader) :
    ∀ n defs, h.guardName ∈ defs → includeTimes h n defs = [] := by
  intro n
  induction n with
  | zero => intro defs _; rfl
  | succ m ih =>
    intro defs hmem
    simp only [includeTimes, includeOnce, if_pos hmem]
    exact ih defs hmem

/-- C9: the artifact in scope, the header `snail.h`, is exactly 16 lines
long. -/
theorem snail_header_sixteen_lines : snailHeaderLines.length = 16 := by rfl

/-- C1: the header declares exactly one function, named `tree_sitter_snail`,
taking no arguments and returning `const TSLanguage *` (a pointer to the
opaque grammar-definition type); no other function is declared. -/
theorem snail_header_single_accessor :
    snailHeader.funDecls =
      [CDecl.funDecl ⟨true, "TSLanguage"⟩ "tree_sitter_snail" []] := by
  decide

/-- C2: the header contains no function definitions (hence no algorithmic
logic or control flow) and no struct definitions; the only type it introduces
is the forward-declared `struct TSLanguage`, which is never defined in the
file. -/
theorem snail_header_no_logic :
    snailHeader.decls.filter CDecl.isTypeIntro =
        [CDecl.typedefForward "TSLanguage" "TSLanguage"] ∧
      snailHeader.decls.all
        (fun d => !d.isFunDef && !d.isStructDef) = true ∧
      snailHeader.structDefined "TSLanguage" = false := by
  refine ⟨by decide, by decide, by decide⟩

/-- C3: the grammar handle is opaque and immutable at the public boundary:
`TSLanguage` is never defined in the header (incomplete type), the accessor's
return type is const-qualified, and consequently no caller can mutate the
grammar through the returned handle. -/
theorem snail_handle_opaque_immutable :
    snailHeader.structDefined "TSLanguage" = false ∧
      snailHeader.retOf "tree_sitter_snail" = some ⟨true, "TSLanguage"⟩ ∧
      snailHeader.canMutateThrough "tree_sitter_snail" = false := by
  refine ⟨by decide, by decide, by decide⟩

/-- C10: including the header any number `n ≥ 1` of times in one translation
unit emits exactly the declarations of a single inclusion: the include guard
`TREE_SITTER_SNAIL_H_` makes repeated inclusion idempotent. -/
theorem snail_include_idempotent :
    ∀ n, 1 ≤ n →
      includeTimes snailHeader n [] = includeTimes snailHeader 1 [] := by
  intro n hn
  match n, hn with
  | m + 1, _ =>
    have hnot : ¬ snailHeader.guardName ∈ ([] : List String) := by simp
    simp only [includeTimes, includeOnce, if_neg hnot]
    rw [includeTimes_guarded snailHeader m _ (List.mem_cons_self _ _)]

/-- Witness for C10 at the concrete repetition count 3. -/
theorem snail_include_idempotent_witness :
    1 ≤ 3 ∧ includeTimes snailHeader 3 [] = includeTimes snailHeader 1 [] :=
  ⟨by decide, snail_include_idempotent 3 (by decide)⟩

/-!
The leaves of the produced tree are exactly the input tokens: shifting and
error recovery both record the consumed token at a leaf, and a reduction
rearranges subtrees without touching leaves.
-/

/-!
Termination of the machine: every continuing step strictly decreases the
measure `2 * |remaining tokens| + |stack|`, so a fuel of `2 * |tokens| + 1`
always suffices.
-/

theorem step_cont_spec (g : Grammar) (c c' : Config)
    (h : step g c = .cont c') :
    measure c' < measure c ∧
      (c'.toks.length < c.toks.length ∨
        (c'.toks.length = c.toks.length ∧ c'.stack.length < c.stack.length)) := by
  unfold step at h
  split at h
  case _ htoks =>
    split at h
    · exact absurd h (by simp)
    case _ r ha =>
      split at h
      case isTrue hcond =>
        cases h
        have hlen : (reduceStep g r c).stack.length < c.stack.length := by
          simp only [reduceStep, List.length_cons, List.length_drop]
          omega
        have htk : (reduceStep g r c).toks = c.toks := rfl
        constructor
        · simp only [measure, htk]; omega
        · right; exact ⟨by rw [htk], hlen⟩
      case isFalse => exact absurd h (by simp)
    · exact absurd h (by simp)
  case _ t ts htoks =>
    split at h
    case _ s' hs =>
      cases h
      constructor
      · simp only [measure, htoks, List.length_cons]; omega
      · left; simp [htoks]
    case _ r ha =>
      split at h
      case isTrue hcond =>
        cases h
        have hlen : (reduceStep g r c).stack.length < c.stack.length := by
          simp only [reduceStep, List.length_cons, List.length_drop]
          omega
        have htk : (reduceStep g r c).toks = c.toks := rfl
        constructor
        · simp only [measure, htk]; omega
        · right; exact ⟨by rw [htk], hlen⟩
      case isFalse =>
        cases h
        constructor
        · simp only [measure, htoks, List.length_cons]; omega
        · left; simp [htoks]
    · cases h
      constructor
      · simp only [measure, htoks, List.length_cons]; omega
      · left; simp [htoks]

theorem run_succeeds (g : Grammar) :
    ∀ fuel c, measure c < fuel → ∃ t, run g fuel c = some t := by
  intro fuel
  induction fuel with
  | zero => intro c h; exact absurd h (Nat.not_lt_zero _)
  | succ f ih =>
    intro c h
    unfold run
    cases hs : step g c with
    | done t => exact ⟨t, rfl⟩
    | cont c' =>
      apply ih
      have hm := (step_cont_spec g c c' hs).1
      omega

theorem run_parseToks (g : Grammar) (ts : List Token) :
    run g (2 * ts.length + 1) (initc g ts) = some (parseToks g ts) := by
  obtain ⟨t, ht⟩ :=
    run_succeeds g (2 * ts.length + 1) (initc g ts)
      (by simp [measure, initc])
  unfold parseToks
  rw [ht]
  rfl

theorem leavesAll_append (xs ys : List Node) :
    leavesAll (xs ++ ys) = leavesAll xs ++ leavesAll ys := by
  induction xs with
  | nil => simp [leavesAll]
  | cons n ns ih => simp [leavesAll, ih]

theorem stackNodes_cons (p : Nat × Node) (st : List (Nat × Node)) :
    stackNodes (p :: st) = stackNodes st ++ [p.2] := by
  simp [stackNodes]

theorem stackNodes_append (xs ys : List (Nat × Node)) :
    stackNodes (xs ++ ys) = stackNodes ys ++ stackNodes xs := by
  simp [stackNodes]

theorem stackLeaves_reduceStep (g : Grammar) (r : Rule) (c : Config) :
    stackLeaves (reduceStep g r c).stack = stackLeaves c.stack := by
  have hsplit : c.stack = c.stack.take r.len ++ c.stack.drop r.len :=
    (List.take_append_drop r.len c.stack).symm
  unfold stackLeaves
  conv_rhs => rw [hsplit]
  rw [stackNodes_append, leavesAll_append]
  show leavesAll (stackNodes
      ((_, Node.internal r.lhs (stackNodes (c.stack.take r.len)))
        :: c.stack.drop r.len)) = _
  rw [stackNodes_cons, leavesAll_append]
  simp [leavesAll, treeLeaves]

theorem treeLeaves_assemble (stack : List (Nat × Node)) :
    treeLeaves (assemble stack) = stackLeaves stack := by
  rcases stack with _ | ⟨⟨s, n⟩, _ | ⟨p, rest⟩⟩
  · rfl
  · simp [assemble, stackLeaves, stackNodes, leavesAll, treeLeaves]
  · rfl

theorem step_leaves (g : Grammar) (c : Config) :
    (∀ c', step g c = .cont c' →
      stackLeaves c'.stack ++ c'.toks = stackLeaves c.stack ++ c.toks) ∧
    (∀ t, step g c = .done t → treeLeaves t = stackLeaves c.stack ++ c.toks) := by
  constructor
  · intro c' h
    unfold step at h
    split at h
    case _ htoks =>
      split at h
      · exact absurd h (by simp)
      case _ r ha =>
        split at h
        case isTrue hcond =>
          cases h
          rw [stackLeaves_reduceStep]
          rfl
        case isFalse => exact absurd h (by simp)
      · exact absurd h (by simp)
    case _ t ts htoks =>
      split at h
      case _ s' hs =>
        cases h
        show stackLeaves ((c.st, Node.leaf t.sym t.start t.stop) :: c.stack)
            ++ ts = _
        unfold stackLeaves
        rw [stackNodes_cons, leavesAll_append, htoks]
        simp [leavesAll, treeLeaves]
      case _ r ha =>
        split at h
        case isTrue hcond =>
          cases h
          rw [stackLeaves_reduceStep]
          rfl
        case isFalse =>
          cases h
          show stackLeaves ((c.st, errWrap t) :: c.stack) ++ ts = _
          unfold stackLeaves
          rw [stackNodes_cons, leavesAll_append, htoks]
          simp [leavesAll, treeLeaves, errWrap]
      · cases h
        show stackLeaves ((c.st, errWrap t) :: c.stack) ++ ts = _
        unfold stackLeaves
        rw [stackNodes_cons, leavesAll_append, htoks]
        simp [leavesAll, treeLeaves, errWrap]
  · intro t h
    unfold step at h
    split at h
    case _ htoks =>
      split at h
      · cases h
        rw [htoks, List.append_nil]
        exact treeLeaves_assemble c.stack
      case _ r ha =>
        split at h
        case isTrue => exact absurd h (by simp)
        case isFalse =>
          cases h
          rw [htoks, List.append_nil]
          rfl
      · cases h
        rw [htoks, List.append_nil]
        rfl
    case _ t' ts htoks =>
      split at h
      · exact absurd h (by simp)
      case _ r ha =>
        split at h
        case isTrue => exact absurd h (by simp)
        case isFalse => exact absurd h (by simp)
      · exact absurd h (by simp)

theorem run_leaves (g : Grammar) :
    ∀ fuel c t, run g fuel c = some t →
      treeLeaves t = stackLeaves c.stack ++ c.toks := by
  intro fuel
  induction fuel with
  | zero => intro c t h; exact absurd h (by simp [run])
  | succ f ih =>
    intro c t h
    unfold run at h
    cases hs : step g c with
    | done t' =>
      rw [hs] at h
      cases h
      exact (step_leaves g c).2 _ hs
    | cont c' =>
      rw [hs] at h
      rw [ih c' t h]
      exact (step_leaves g c).1 _ hs

theorem parseToks_leaves (g : Grammar) (ts : List Token) :
    treeLeaves (parseToks g ts) = ts := by
  have h := run_leaves g (2 * ts.length + 1) (initc g ts) (parseToks g ts)
    (run_parseToks g ts)
  simpa [initc, stackLeaves, stackNodes, leavesAll] using h

/-!
Incremental equivalence: the tokens reused from the prior tree's undamaged
leading leaves coincide with what re-lexing the unedited region would
produce, so re-driving the parser core over reused-plus-fresh tokens yields
exactly the tree of a full parse of the post-edit text.
-/

theorem lexFrom_append (g : Grammar) :
    ∀ (xs ys : List Nat) (p : Nat),
      lexFrom g (xs ++ ys) p = lexFrom g xs p ++ lexFrom g ys (p + xs.length) := by
  intro xs
  induction xs with
  | nil => intro ys p; simp [lexFrom]
  | cons b bs ih =>
    intro ys p
    simp only [List.cons_append, lexFrom, List.append_eq, ih, List.length_cons]
    rw [show p + (bs.length + 1) = p + 1 + bs.length by omega]

theorem lexFrom_take (g : Grammar) :
    ∀ (xs : List Nat) (p k : Nat),
      (lexFrom g xs p).take k = lexFrom g (xs.take k) p := by
  intro xs
  induction xs with
  | nil => intro p k; simp [lexFrom]
  | cons b bs ih =>
    intro p k
    cases k with
    | zero => simp [lexFrom]
    | succ m => simp [lexFrom, List.take_succ_cons, ih]

theorem take_applyEdit (text : List Nat) (e : Edit) :
    (applyEdit text e).take (min e.start text.length) =
      text.take (min e.start text.length) := by
  have h1 : (text.take e.start).length = min e.start text.length := by
    simp [List.length_take]
  rw [applyEdit, List.append_assoc, List.take_append_eq_append_take, h1]
  simp only [Nat.sub_self, List.take_zero, List.append_nil, List.take_take]
  rw [show e.start ⊓ text.length ⊓ e.start = e.start ⊓ text.length by omega]

theorem applyEdit_length_ge (text : List Nat) (e : Edit) :
    min e.start text.length ≤ (applyEdit text e).length := by
  simp [applyEdit]

theorem reparse_parse (g : Grammar) (text : List Nat) (e : Edit) :
    reparse g (parse g text) e (applyEdit text e) =
      Except.ok (parse g (applyEdit text e)) := by
  simp only [reparse]
  rw [if_pos (show (parse g text).version = g.version from rfl)]
  have hkle : min e.start text.length ≤ (applyEdit text e).length :=
    applyEdit_length_ge text e
  have htoklen : ((applyEdit text e).take (min e.start text.length)).length =
      min e.start text.length := by
    simp only [List.length_take]
    omega
  have hlex : lex g (applyEdit text e) =
      lexFrom g ((applyEdit text e).take (min e.start text.length)) 0 ++
        lexFrom g ((applyEdit text e).drop (min e.start text.length))
          (min e.start text.length) := by
    unfold lex
    conv_lhs =>
      rw [← List.take_append_drop (min e.start text.length) (applyEdit text e)]
    rw [lexFrom_append, htoklen, Nat.zero_add]
  have hreused : (treeLeaves (parse g text).root).take (min e.start text.length)
      = lexFrom g ((applyEdit text e).take (min e.start text.length)) 0 := by
    have hl : treeLeaves (parse g text).root = lex g text :=
      parseToks_leaves g (lex g text)
    rw [hl]
    unfold lex
    rw [lexFrom_take, take_applyEdit]
  show Except.ok
      ⟨parseToks g
          ((treeLeaves (parse g text).root).take (min e.start text.length) ++
            lexFrom g ((applyEdit text e).drop (min e.start text.length))
              (min e.start text.length)),
        (applyEdit text e).length, g.version⟩ =
    Except.ok (parse g (applyEdit text e))
  rw [hreused, ← hlex]
  rfl

mutual

theorem spannedB_bounds : ∀ (n : Node) (x y : Nat), spannedB n x y = true →
    nStart n = x ∧ nStop n = y ∧ x ≤ y
  | .leaf s a b, x, y, h => by
    simp only [spannedB, Bool.and_eq_true, beq_iff_eq, decide_eq_true_eq] at h
    exact ⟨h.1.1, h.1.2, h.2⟩
  | .internal s [], x, y, h => by simp [spannedB] at h
  | .internal s (c :: cs), x, y, h => by
    have hl := spannedLB_bounds c cs x y h
    exact ⟨hl.1, hl.2.1, hl.2.2⟩
termination_by n _ _ _ => sizeOf n

theorem spannedLB_bounds : ∀ (c : Node) (cs : List Node) (x y : Nat),
    spannedLB (c :: cs) x y = true →
    lStart (c :: cs) = x ∧ lStop (c :: cs) = y ∧ x ≤ y
  | c, [], x, y, h => by
    have h' : spannedB c x (nStop c) = true ∧ (nStop c == y) = true := by
      simpa only [spannedLB, Bool.and_eq_true] using h
    have hyeq : nStop c = y := by simpa using h'.2
    have hb := spannedB_bounds c x (nStop c) h'.1
    exact ⟨hb.1, by simp [lStop, hyeq], by omega⟩
  | c, c' :: cs, x, y, h => by
    have h' : spannedB c x (nStop c) = true ∧
        spannedLB (c' :: cs) (nStop c) y = true := by
      rw [show spannedLB (c :: c' :: cs) x y =
        (spannedB c x (nStop c) && spannedLB (c' :: cs) (nStop c) y)
        from rfl, Bool.and_eq_true] at h
      exact h
    have hb := spannedB_bounds c x (nStop c) h'.1
    have hl := spannedLB_bounds c' cs (nStop c) y h'.2
    refine ⟨hb.1, ?_, ?_⟩
    · show lStop (c :: c' :: cs) = y
      rw [show lStop (c :: c' :: cs) = lStop (c' :: cs) from rfl]
      exact hl.2.1
    · have := hb.2.2
      have := hl.2.2
      omega
termination_by c cs _ _ _ => sizeOf (c :: cs)

end

theorem spannedLB_snoc : ∀ (ns : List Node) (n : Node) (x y z : Nat),
    spannedLB ns x y = true → spannedB n y z = true →
    spannedLB (ns ++ [n]) x z = true := by
  intro ns
  induction ns with
  | nil =>
    intro n x y z hl hb
    simp only [spannedLB, beq_iff_eq] at hl
    subst hl
    have hbnd := spannedB_bounds n x z hb
    simp only [List.nil_append, spannedLB, Bool.and_eq_true, beq_iff_eq]
    exact ⟨by rw [hbnd.2.1]; exact hb, by rw [hbnd.2.1]⟩
  | cons c cs ih =>
    intro n x y z hl hb
    simp only [spannedLB, Bool.and_eq_true] at hl
    simp only [List.cons_append, spannedLB, Bool.and_eq_true]
    exact ⟨hl.1, ih n (nStop c) y z hl.2 hb⟩

theorem spannedLB_mem : ∀ (ns : List Node) (x y : Nat),
    spannedLB ns x y = true →
    ∀ c ∈ ns, spannedB c (nStart c) (nStop c) = true := by
  intro ns
  induction ns with
  | nil => intro x y _ c hc; exact absurd hc (List.not_mem_nil c)
  | cons d ds ih =>
    intro x y h c hc
    simp only [spannedLB, Bool.and_eq_true] at h
    rcases List.mem_cons.mp hc with rfl | hc'
    · have hbnd := spannedB_bounds c x (nStop c) h.1
      rw [hbnd.1]
      exact h.1
    · exact ih (nStop d) y h.2 c hc'

theorem spannedLB_le : ∀ (ns : List Node) (x y : Nat),
    spannedLB ns x y = true → x ≤ y := by
  intro ns
  induction ns with
  | nil => intro x y h; exact le_of_eq (by simpa [spannedLB] using h)
  | cons d ds ih =>
    intro x y h
    simp only [spannedLB, Bool.and_eq_true] at h
    have hbd := spannedB_bounds d x (nStop d) h.1
    have := ih (nStop d) y h.2
    omega

theorem spannedLB_mem_bounds : ∀ (ns : List Node) (x y : Nat),
    spannedLB ns x y = true →
    ∀ c ∈ ns, x ≤ nStart c ∧ nStop c ≤ y := by
  intro ns
  induction ns with
  | nil => intro x y _ c hc; exact absurd hc (List.not_mem_nil c)
  | cons d ds ih =>
    intro x y h c hc
    simp only [spannedLB, Bool.and_eq_true] at h
    have hbd := spannedB_bounds d x (nStop d) h.1
    have hdsle := spannedLB_le ds (nStop d) y h.2
    rcases List.mem_cons.mp hc with rfl | hc'
    · exact ⟨le_of_eq hbd.1.symm, by omega⟩
    · have := ih (nStop d) y h.2 c hc'
      constructor
      · omega
      · exact this.2

theorem spannedLB_chain : ∀ (ns : List Node) (x y : Nat),
    spannedLB ns x y = true →
    List.Chain' (fun a b => nStop a ≤ nStart b) ns := by
  intro ns
  induction ns with
  | nil => intro x y _; exact List.chain'_nil
  | cons d ds ih =>
    intro x y h
    simp only [spannedLB, Bool.and_eq_true] at h
    cases ds with
    | nil => simp
    | cons d' ds' =>
      simp only [spannedLB, Bool.and_eq_true] at h
      have hbd' := spannedB_bounds d' (nStop d) (nStop d') h.2.1
      refine List.chain'_cons.mpr ⟨le_of_eq hbd'.1.symm, ?_⟩
      exact ih (nStop d) y (by simp [spannedLB, h.2.1, h.2.2])

theorem subnode_of_childless {m n : Node} (h : Subnode m n)
    (hc : childrenOf n = []) : m = n := by
  cases h with
  | refl => rfl
  | child hmem _ => rw [hc] at hmem; exact absurd hmem (List.not_mem_nil _)

mutual

theorem spanned_spanInv : ∀ (n : Node) (x y : Nat),
    spannedB n x y = true → SpanInv n
  | .leaf s a b, x, y, _h => by
    intro m hm
    have := subnode_of_childless hm (by rfl)
    subst this
    exact ⟨fun c hc => absurd hc (List.not_mem_nil c), List.chain'_nil⟩
  | .internal s [], x, y, h => by simp [spannedB] at h
  | .internal s (c :: cs), x, y, h => by
    intro m hm
    cases hm with
    | refl =>
      have hb := spannedB_bounds (.internal s (c :: cs)) x y h
      constructor
      · intro d hd
        have := spannedLB_mem_bounds (c :: cs) x y h d hd
        rw [hb.1, show nStop (Node.internal s (c :: cs)) = lStop (c :: cs)
          from rfl, (spannedLB_bounds c cs x y h).2.1]
        exact this
      · exact spannedLB_chain (c :: cs) x y h
    | child hmem hsub =>
      rename_i d
      exact spannedL_spanInv (c :: cs) x y h d hmem m hsub

theorem spannedL_spanInv : ∀ (ns : List Node) (x y : Nat),
    spannedLB ns x y = true → ∀ c ∈ ns, SpanInv c
  | [], _, _, _, c, hc => absurd hc (List.not_mem_nil c)
  | d :: ds, x, y, h, c, hc => by
    simp only [spannedLB, Bool.and_eq_true] at h
    rcases List.mem_cons.mp hc with rfl | hc'
    · exact spanned_spanInv c x (nStop c) h.1
    · exact spannedL_spanInv ds (nStop d) y h.2 c hc'

end

theorem stackCov_take : ∀ (k : Nat) (st : List (Nat × Node)) (p : Nat),
    stackCovB st p = true →
    ∃ a, spannedLB (stackNodes (st.take k)) a p = true ∧
      stackCovB (st.drop k) a = true := by
  intro k
  induction k with
  | zero =>
    intro st p h
    exact ⟨p, by simp [stackNodes, spannedLB], h⟩
  | succ k ih =>
    intro st p h
    cases st with
    | nil => exact ⟨p, by simp [stackNodes, spannedLB], h⟩
    | cons sn rest =>
      obtain ⟨s, n⟩ := sn
      simp only [stackCovB, Bool.and_eq_true] at h
      obtain ⟨a, hL, hC⟩ := ih rest (nStart n) h.2
      refine ⟨a, ?_, hC⟩
      rw [List.take_succ_cons, stackNodes_cons]
      exact spannedLB_snoc _ n a (nStart n) p hL h.1

theorem stackCov_spannedL (st : List (Nat × Node)) (p : Nat)
    (h : stackCovB st p = true) : spannedLB (stackNodes st) 0 p = true := by
  obtain ⟨a, hL, hC⟩ := stackCov_take st.length st p h
  rw [List.take_length] at hL
  rw [List.drop_length] at hC
  have ha : a = 0 := by simpa [stackCovB] using hC
  subst ha
  exact hL

theorem spanInv_childless (s : Nat) : SpanInv (.internal s []) := by
  intro m hm
  have hme := subnode_of_childless hm (by rfl)
  subst hme
  exact ⟨fun c hc => absurd hc (List.not_mem_nil c), List.chain'_nil⟩

theorem spanInv_wrap (s : Nat) (st : List (Nat × Node)) (p : Nat)
    (h : stackCovB st p = true) : SpanInv (.internal s (stackNodes st)) := by
  have hsp := stackCov_spannedL st p h
  cases hst : stackNodes st with
  | nil => exact spanInv_childless s
  | cons c cs =>
    rw [hst] at hsp
    exact spanned_spanInv (.internal s (c :: cs)) 0 p
      (by simpa [spannedB] using hsp)

theorem step_spanInv (g : Grammar) (c : Config) (pos : Nat)
    (hcov : stackCovB c.stack pos = true)
    (htok : tokensFrom pos c.toks = true) :
    (∀ c', step g c = .cont c' →
      ∃ pos', stackCovB c'.stack pos' = true ∧
        tokensFrom pos' c'.toks = true) ∧
    (∀ t, step g c = .done t → SpanInv t) := by
  have hreduce : ∀ r, 2 ≤ r.len → r.len ≤ c.stack.length →
      stackCovB (reduceStep g r c).stack pos = true := by
    intro r h2 hle
    obtain ⟨a, hL, hC⟩ := stackCov_take r.len c.stack pos hcov
    have hlen : (stackNodes (c.stack.take r.len)).length = r.len := by
      simp [stackNodes, List.length_take]
      omega
    cases hsn : stackNodes (c.stack.take r.len) with
    | nil => rw [hsn] at hlen; simp at hlen; omega
    | cons c₀ cs₀ =>
      rw [hsn] at hL
      have hsp : spannedB (.internal r.lhs (stackNodes (c.stack.take r.len)))
          a pos = true := by
        rw [hsn]
        simpa [spannedB] using hL
      have hst : nStart (.internal r.lhs (stackNodes (c.stack.take r.len)))
          = a := (spannedB_bounds _ a pos hsp).1
      show (spannedB (.internal r.lhs (stackNodes (c.stack.take r.len)))
          (nStart (.internal r.lhs (stackNodes (c.stack.take r.len)))) pos &&
        stackCovB (c.stack.drop r.len)
          (nStart (.internal r.lhs (stackNodes (c.stack.take r.len))))) = true
      rw [hst, Bool.and_eq_true]
      exact ⟨hsp, hC⟩
  constructor
  · intro c' h
    unfold step at h
    split at h
    case _ htoks =>
      split at h
      · exact absurd h (by simp)
      case _ r ha =>
        split at h
        case isTrue hcond =>
          cases h
          exact ⟨pos, hreduce r hcond.1 hcond.2, by
            show tokensFrom pos c.toks = true
            exact htok⟩
        case isFalse => exact absurd h (by simp)
      · exact absurd h (by simp)
    case _ t ts htoks =>
      rw [htoks] at htok
      simp only [tokensFrom, Bool.and_eq_true, beq_iff_eq,
        decide_eq_true_eq] at htok
      split at h
      case _ s' hs =>
        cases h
        refine ⟨t.stop, ?_, htok.2⟩
        show (spannedB (.leaf t.sym t.start t.stop)
            (nStart (.leaf t.sym t.start t.stop)) t.stop &&
          stackCovB c.stack (nStart (.leaf t.sym t.start t.stop))) = true
        have hns : nStart (.leaf t.sym t.start t.stop) = t.start := rfl
        rw [hns, htok.1.1, Bool.and_eq_true]
        constructor
        · simp [spannedB]
          omega
        · exact hcov
      case _ r ha =>
        split at h
        case isTrue hcond =>
          cases h
          refine ⟨pos, hreduce r hcond.1 hcond.2, ?_⟩
          have hre : (reduceStep g r c).toks = t :: ts := by
            rw [show (reduceStep g r c).toks = c.toks from rfl, htoks]
          rw [hre]
          simp [tokensFrom, htok.1.1, htok.1.2, htok.2]
        case isFalse =>
          cases h
          refine ⟨t.stop, ?_, htok.2⟩
          show (spannedB (errWrap t) (nStart (errWrap t)) t.stop &&
            stackCovB c.stack (nStart (errWrap t))) = true
          have hns : nStart (errWrap t) = t.start := rfl
          rw [hns, htok.1.1, Bool.and_eq_true]
          constructor
          · simp [errWrap, spannedB, spannedLB, nStop]
            omega
          · exact hcov
      · cases h
        refine ⟨t.stop, ?_, htok.2⟩
        show (spannedB (errWrap t) (nStart (errWrap t)) t.stop &&
          stackCovB c.stack (nStart (errWrap t))) = true
        have hns : nStart (errWrap t) = t.start := rfl
        rw [hns, htok.1.1, Bool.and_eq_true]
        constructor
        · simp [errWrap, spannedB, spannedLB, nStop]
          omega
        · exact hcov
  · intro t h
    unfold step at h
    split at h
    case _ htoks =>
      split at h
      · cases h
        rcases hst : c.stack with _ | ⟨⟨s, n⟩, _ | ⟨p₂, rest⟩⟩
        · exact spanInv_childless errorSym
        · rw [hst] at hcov
          simp only [stackCovB, Bool.and_eq_true, beq_iff_eq] at hcov
          have h0 : nStart n = 0 := hcov.2
          rw [h0] at hcov
          exact spanned_spanInv n 0 pos hcov.1
        · rw [hst] at hcov
          have hw : assemble ((s, n) :: p₂ :: rest) =
              .internal errorSym (stackNodes ((s, n) :: p₂ :: rest)) := rfl
          rw [hw]
          exact spanInv_wrap errorSym _ pos hcov
      case _ r ha =>
        split at h
        case isTrue => exact absurd h (by simp)
        case isFalse =>
          cases h
          exact spanInv_wrap errorSym _ pos hcov
      · cases h
        exact spanInv_wrap errorSym _ pos hcov
    case _ t' ts htoks =>
      split at h
      · exact absurd h (by simp)
      case _ r ha =>
        split at h
        case isTrue => exact absurd h (by simp)
        case isFalse => exact absurd h (by simp)
      · exact absurd h (by simp)

theorem run_spanInv (g : Grammar) :
    ∀ fuel c pos t, run g fuel c = some t →
      stackCovB c.stack pos = true → tokensFrom pos c.toks = true →
      SpanInv t := by
  intro fuel
  induction fuel with
  | zero => intro c pos t h _ _; exact absurd h (by simp [run])
  | succ f ih =>
    intro c pos t h hcov htok
    unfold run at h
    cases hs : step g c with
    | done t' =>
      rw [hs] at h
      cases h
      exact (step_spanInv g c pos hcov htok).2 _ hs
    | cont c' =>
      rw [hs] at h
      obtain ⟨pos', hcov', htok'⟩ := (step_spanInv g c pos hcov htok).1 c' hs
      exact ih c' pos' t h hcov' htok'

theorem lexFrom_tokensFrom (g : Grammar) :
    ∀ (xs : List Nat) (p : Nat), tokensFrom p (lexFrom g xs p) = true := by
  intro xs
  induction xs with
  | nil => intro p; rfl
  | cons b bs ih => intro p; simp [lexFrom, tokensFrom, ih]

theorem parseToks_spanInv (g : Grammar) (ts : List Token)
    (h : tokensFrom 0 ts = true) : SpanInv (parseToks g ts) :=
  run_spanInv g (2 * ts.length + 1) (initc g ts) 0 (parseToks g ts)
    (run_parseToks g ts) (by rfl) h

theorem parse_spanInv (g : Grammar) (text : List Nat) :
    SpanInv (parse g text).root :=
  parseToks_spanInv g (lex g text) (lexFrom_tokensFrom g text 0)

theorem Run_det (g : Grammar) :
    ∀ c t₁ t₂, Run g c t₁ → Run g c t₂ → t₁ = t₂ := by
  intro c t₁ t₂ h1
  induction h1 generalizing t₂ with
  | done hs =>
    intro h2
    cases h2 with
    | done hs2 => rw [hs] at hs2; cases hs2; rfl
    | next hs2 _ => rw [hs] at hs2; cases hs2
  | next hs _ ih =>
    intro h2
    cases h2 with
    | done hs2 => rw [hs] at hs2; cases hs2
    | next hs2 hr2 =>
      rw [hs] at hs2
      cases hs2
      exact ih _ hr2

theorem run_Run (g : Grammar) :
    ∀ fuel c t, run g fuel c = some t → Run g c t := by
  intro fuel
  induction fuel with
  | zero => intro c t h; exact absurd h (by simp [run])
  | succ f ih =>
    intro c t h
    unfold run at h
    cases hs : step g c with
    | done t' => rw [hs] at h; cases h; exact Run.done hs
    | cont c' => rw [hs] at h; exact Run.next hs (ih c' t h)

theorem runB_none (g : Grammar) :
    ∀ fuel c, runB g none fuel c = (run g fuel c).map Except.ok := by
  intro fuel
  induction fuel with
  | zero => intro c; rfl
  | succ f ih =>
    intro c
    unfold runB run
    cases hs : step g c with
    | done t => simp [hs, overBudget]
    | cont c' => simp [hs, overBudget, ih c']

theorem runB_some (g : Grammar) (b : Nat) :
    ∀ fuel c, measure c < fuel →
      ∃ r, runB g (some b) fuel c = some r := by
  intro fuel
  induction fuel with
  | zero => intro c h; exact absurd h (Nat.not_lt_zero _)
  | succ f ih =>
    intro c h
    unfold runB
    cases hb : overBudget (some b) c with
    | true => exact ⟨.error .resourceExhausted, by simp⟩
    | false =>
      cases hs : step g c with
      | done t => exact ⟨.ok t, by simp⟩
      | cont c' =>
        have hm := (step_cont_spec g c c' hs).1
        simpa using ih c' (by omega)

theorem runB_ok (g : Grammar) (b : Nat) :
    ∀ fuel c t, runB g (some b) fuel c = some (.ok t) →
      run g fuel c = some t := by
  intro fuel
  induction fuel with
  | zero => intro c t h; exact absurd h (by simp [runB])
  | succ f ih =>
    intro c t h
    unfold runB at h
    unfold run
    cases hb : overBudget (some b) c with
    | true => rw [hb] at h; simp at h
    | false =>
      rw [hb] at h
      cases hs : step g c with
      | done t' =>
        rw [hs] at h
        simp at h
        simp [h]
      | cont c' =>
        rw [hs] at h
        simp at h ⊢
        exact ih c' t h

theorem runB_error (g : Grammar) (b : Nat) :
    ∀ fuel c e, runB g (some b) fuel c = some (.error e) →
      e = .resourceExhausted := by
  intro fuel
  induction fuel with
  | zero => intro c e h; exact absurd h (by simp [runB])
  | succ f ih =>
    intro c e h
    unfold runB at h
    cases hb : overBudget (some b) c with
    | true =>
      rw [hb] at h
      simp at h
      exact h.symm
    | false =>
      rw [hb] at h
      cases hs : step g c with
      | done t' => rw [hs] at h; simp at h
      | cont c' =>
        rw [hs] at h
        simp at h
        exact ih c' e h

theorem parseApi_none (g : Grammar) (text : List Nat) :
    parseApi g none text = .ok (parse g text) := by
  unfold parseApi
  rw [runB_none, run_parseToks]
  rfl

theorem parseApi_budget (g : Grammar) (b : Nat) (text : List Nat) :
    parseApi g (some b) text = .error .resourceExhausted ∨
      parseApi g (some b) text = .ok (parse g text) := by
  obtain ⟨r, hr⟩ := runB_some g b (2 * (lex g text).length + 1)
    (initc g (lex g text)) (by simp [measure, initc])
  unfold parseApi
  rw [hr]
  cases r with
  | ok t =>
    right
    have hrun := runB_ok g b _ _ t hr
    rw [run_parseToks] at hrun
    have ht : parseToks g (lex g text) = t := by
      simpa using hrun
    rw [← ht]
    rfl
  | error e =>
    left
    rw [runB_error g b _ _ e hr]

theorem reparse_mismatch (g : Grammar) (prior : Tree) (e : Edit)
    (nt : List Nat) (h : prior.version ≠ g.version) :
    reparse g prior e nt = .error .grammarMismatch := by
  unfold reparse
  rw [if_neg h]

theorem step_error_recovery (g : Grammar) (st : Nat)
    (stack : List (Nat × Node)) (t : Token) (ts : List Token)
    (ha : g.action st (some t.sym) = .error) :
    step g ⟨st, stack, t :: ts⟩ =
        .cont ⟨st, (st, errWrap t) :: stack, ts⟩ ∧
      isErrNode (errWrap t) = true ∧ treeLeaves (errWrap t) = [t] := by
  refine ⟨?_, by simp [isErrNode, errWrap], by
    simp [treeLeaves, errWrap, leavesAll]⟩
  dsimp only [step]
  rw [ha]

/-- C4: incremental reparsing is equivalent to full parsing: for every
grammar, text and edit, reparsing the prior tree against the edited text
(reusing the undamaged leading leaf tokens rather than re-lexing them)
returns exactly the tree of a full parse of the post-edit text. -/
theorem incremental_equivalence :
    ∀ (g : Grammar) (text : List Nat) (e : Edit),
      reparse g (parse g text) e (applyEdit text e) =
        Except.ok (parse g (applyEdit text e)) :=
  fun g text e => reparse_parse g text e

/-- C5: parsing any finite byte sequence always terminates and returns some
tree: the machine run completes within fuel 2·|tokens|+1, and every
continuing step either strictly consumes input or strictly reduces stack
depth — in particular each error-recovery step consumes (skips) a non-zero
number of tokens — so no unbounded loop is possible. -/
theorem parse_terminates :
    (∀ (g : Grammar) (text : List Nat),
      ∃ t, run g (2 * (lex g text).length + 1)
        (initc g (lex g text)) = some t) ∧
    (∀ (g : Grammar) (c c' : Config), step g c = .cont c' →
      c'.toks.length < c.toks.length ∨
        (c'.toks.length = c.toks.length ∧
          c'.stack.length < c.stack.length)) := by
  constructor
  · intro g text
    exact run_succeeds g _ _ (by simp [measure, initc])
  · intro g c c' h
    exact (step_cont_spec g c c' h).2

/-- Witness for C5 at the demo grammar and input: the run terminates, and the
first step (a shift) strictly consumes input. -/
theorem parse_terminates_witness :
    (∃ t, run demoG (2 * (lex demoG demoText).length + 1)
        (initc demoG (lex demoG demoText)) = some t) ∧
      (demoC1.toks.length < demoC0.toks.length ∨
        (demoC1.toks.length = demoC0.toks.length ∧
          demoC1.stack.length < demoC0.stack.length)) :=
  ⟨parse_terminates.1 demoG demoText,
    parse_terminates.2 demoG demoC0 demoC1 (by rfl)⟩

/-- C6: parsing is deterministic: any two complete runs of the parser core
over the same tokenized text under the same grammar yield structurally
identical trees, and the lexer's next_token is a deterministic function of
(state, cursor, text). -/
theorem parse_deterministic :
    (∀ (g : Grammar) (text : List Nat) (t₁ t₂ : Node),
      Run g (initc g (lex g text)) t₁ →
        Run g (initc g (lex g text)) t₂ → t₁ = t₂) ∧
    (∀ (g : Grammar) (st pos : Nat) (text : List Nat)
        (r₁ r₂ : Option Token),
      nextToken g st pos text = r₁ → nextToken g st pos text = r₂ →
        r₁ = r₂) := by
  constructor
  · intro g text t₁ t₂ h1 h2
    exact Run_det g _ t₁ t₂ h1 h2
  · intro g st pos text r₁ r₂ h1 h2
    rw [← h1, ← h2]

/-- Witness for C6: two complete runs over the demo input both yield the demo
tree, and next_token at the start of the demo input is well defined. -/
theorem parse_deterministic_witness :
    demoRoot = demoRoot ∧
      (some (⟨0, 0, 1⟩ : Token) = some (⟨0, 0, 1⟩ : Token)) :=
  ⟨parse_deterministic.1 demoG demoText demoRoot demoRoot
      (run_Run demoG (2 * (lex demoG demoText).length + 1)
        (initc demoG (lex demoG demoText)) demoRoot (by rfl))
      (run_Run demoG (2 * (lex demoG demoText).length + 1)
        (initc demoG (lex demoG demoText)) demoRoot (by rfl)),
    parse_deterministic.2 demoG 0 0 demoText (some ⟨0, 0, 1⟩)
      (some ⟨0, 0, 1⟩) rfl rfl⟩

/-- C7: every tree produced by a full parse, and every tree produced by an
incremental reparse of an edited text against its prior parse tree,
satisfies the span invariants: each child's byte span is contained in its
parent's span, and sibling spans are pairwise non-overlapping and
monotonically increasing in document order. -/
theorem span_invariants :
    ∀ (g : Grammar) (text : List Nat),
      SpanInv (parse g text).root ∧
        ∀ (e : Edit) (t : Tree),
          reparse g (parse g text) e (applyEdit text e) = .ok t →
            SpanInv t.root := by
  intro g text
  refine ⟨parse_spanInv g text, ?_⟩
  intro e t h
  rw [reparse_parse g text e] at h
  injection h with h2
  rw [← h2]
  exact parse_spanInv g (applyEdit text e)

/-- Witness for C7: span invariants hold for the demo parse, and for the demo
reparse after editing byte 2. -/
theorem span_invariants_witness :
    SpanInv (parse demoG demoText).root ∧
      SpanInv (Tree.mk demoRoot 5 1).root :=
  ⟨(span_invariants demoG demoText).1,
    (span_invariants demoG demoText).2 demoEdit ⟨demoRoot, 5, 1⟩ (by rfl)⟩

/-- C8: error propagation policy: with no resource ceiling the parser never
hard-fails — any input (malformed included) yields a tree, with recovery
embedding skipped tokens as explicit ERROR nodes while parsing continues;
under a resource ceiling the result is either the full parse or the
`ResourceExhausted` failure value (never a partial tree); a prior tree from
a different grammar revision is rejected with `GrammarMismatch`; and these
two are the only hard-failure values that can propagate to the caller. -/
theorem error_policy :
    (∀ (g : Grammar) (text : List Nat),
      parseApi g none text = .ok (parse g text)) ∧
    (∀ (g : Grammar) (st : Nat) (stack : List (Nat × Node)) (t : Token)
        (ts : List Token), g.action st (some t.sym) = .error →
      step g ⟨st, stack, t :: ts⟩ =
          .cont ⟨st, (st, errWrap t) :: stack, ts⟩ ∧
        isErrNode (errWrap t) = true ∧ treeLeaves (errWrap t) = [t]) ∧
    (∀ (g : Grammar) (b : Nat) (text : List Nat),
      parseApi g (some b) text = .error .resourceExhausted ∨
        parseApi g (some b) text = .ok (parse g text)) ∧
    (∀ (g : Grammar) (prior : Tree) (e : Edit) (nt : List Nat),
      prior.version ≠ g.version →
        reparse g prior e nt = .error .grammarMismatch) ∧
    (∀ err : ParseError,
      err = .resourceExhausted ∨ err = .grammarMismatch) := by
  refine ⟨parseApi_none, step_error_recovery, parseApi_budget,
    reparse_mismatch, ?_⟩
  intro err
  cases err
  · exact Or.inl rfl
  · exact Or.inr rfl

/-- Witness for C8 at the demo grammar: unbudgeted parse succeeds; recovery
on an unclassifiable byte embeds an ERROR node and continues; a zero stack
budget yields the resource-exhaustion dichotomy; a bumped grammar revision
is rejected; and `grammarMismatch` is one of the two failure values. -/
theorem error_policy_witness :
    parseApi demoG none demoText = .ok (parse demoG demoText) ∧
      (step demoG ⟨0, [], [⟨2, 0, 1⟩]⟩ =
          .cont ⟨0, [(0, errWrap ⟨2, 0, 1⟩)], []⟩ ∧
        isErrNode (errWrap ⟨2, 0, 1⟩) = true ∧
        treeLeaves (errWrap ⟨2, 0, 1⟩) = [⟨2, 0, 1⟩]) ∧
      (parseApi demoG (some 0) demoText = .error .resourceExhausted ∨
        parseApi demoG (some 0) demoText = .ok (parse demoG demoText)) ∧
      reparse demoG2 (parse demoG demoText) demoEdit
          (applyEdit demoText demoEdit) = .error .grammarMismatch ∧
      (ParseError.grammarMismatch = .resourceExhausted ∨
        ParseError.grammarMismatch = .grammarMismatch) :=
  ⟨error_policy.1 demoG demoText,
    error_policy.2.1 demoG 0 [] ⟨2, 0, 1⟩ [] (by rfl),
    error_policy.2.2.1 demoG 0 demoText,
    error_policy.2.2.2.1 demoG2 (parse demoG demoText) demoEdit
      (applyEdit demoText demoEdit) (by decide),
    error_policy.2.2.2.2 .grammarMismatch⟩

end Snail
